import Mathlib

set_option maxRecDepth 8192

/-!
Verification of the `shuttle-service` contract crate (src/service/src/lib.rs).

The crate defines three interfaces: `Factory` (platform-managed provisioning),
`ResourceBuilder` (per-resource provisioning with config-keyed caching) and
`Service` (lifecycle entry points `bind` / `health_check` / `shutdown` plus the
`IDLE` policy constant).  Async methods are embedded as pure functions with
explicit state passing; machine integers are `Nat` with explicit bounds.
-/

namespace Shuttle

/-- Modelled from the spec: the error enum of the crate's `error` module
(`src/service/src/error.rs` is not among the sources; only `lib.rs` is).
Spec section 7 lists the kinds ProvisioningError, CacheError, HealthCheckFailed
(carrying a reason string), BindFailed and CustomError; `lib.rs` line 110/114
shows the health-check constructor is spelled `HeathCheckFailed` and carries a
`String` reason. -/
inductive Error where
  | Provisioning (msg : String)
  | Cache (msg : String)
  | HeathCheckFailed (reason : String)
  | BindFailed (msg : String)
  | Custom (msg : String)
  deriving DecidableEq, Repr

/-- `u32::MAX + 1`. -/
def U32_BOUND : Nat := 2 ^ 32

instance : NeZero U32_BOUND := ⟨by norm_num [U32_BOUND]⟩

/-- `std::num::NonZeroU32`: a 32-bit unsigned integer that is not zero.
The type invariant is carried as proof fields. -/
structure NonZeroU32 where
  val : Nat
  pos : 0 < val
  lt_bound : val < U32_BOUND

/-- `NonZeroU32::new_unchecked`: in Rust the caller must guarantee the value is
nonzero (undefined behaviour otherwise); in the embedding that obligation is an
explicit proof argument, so a value of the type can only be produced when the
precondition actually holds. -/
def NonZeroU32.new_unchecked (n : Nat) (h : 0 < n) (hb : n < U32_BOUND) : NonZeroU32 :=
  ⟨n, h, hb⟩

/-- `pub enum Idle` (lib.rs lines 86-89): idle after the carried number of
seconds of inactivity, or always on. -/
inductive Idle where
  | DoIdle (threshold : NonZeroU32)
  | AlwaysOn

/-- Projection: the threshold carried by a `DoIdle` policy, if any. -/
def Idle.threshold? : Idle → Option NonZeroU32
  | Idle.DoIdle n => some n
  | Idle.AlwaysOn => none

/-- The constant `Idle::DoIdle(unsafe { NonZeroU32::new_unchecked(30) })`
used as the default of `Service::IDLE` (lib.rs line 96). -/
def thirtySeconds : NonZeroU32 := NonZeroU32.new_unchecked 30 (by decide) (by decide)

/-- Modelled from the spec: `shuttle_common::deployment::Environment`
(re-exported by lib.rs, source not included); spec section 3 says the
environment is e.g. local or production. -/
inductive Environment where
  | Local
  | Production
  deriving DecidableEq, Repr

/-- Modelled from the spec: `shuttle_common::deployment::DeploymentMetadata`
(re-exported by lib.rs, source not included); spec section 3: environment,
service name and other read-only facts. -/
structure DeploymentMetadata where
  environment : Environment
  service_name : String
  deriving DecidableEq, Repr

/-- Modelled from the spec: `shuttle_common::database::Type` (source not
included); a resource-kind tag for the database being requested. -/
abbrev DatabaseType := String

/-- Modelled from the spec: `shuttle_common::DatabaseReadyInfo` (source not
included); the connection information returned by provisioning. -/
structure DatabaseReadyInfo where
  connection_string : String

/-- `std::collections::BTreeMap`: embedded as an association list strictly
sorted by key, which is the representation invariant of the Rust type
(keys unique, in increasing order). -/
structure BTreeMap (α β : Type) [LinearOrder α] where
  entries : List (α × β)
  sorted : entries.Pairwise (fun p q => p.1 < q.1)

/-- `trait Factory` (lib.rs lines 26-38).  The two async methods take
`&mut self` and return `Result`; they are embedded as functions from the
factory state `σ` returning a result paired with the new state.
`get_metadata` takes `&self`, is not async and returns the metadata directly
(lib.rs line 37). -/
structure Factory (σ : Type) where
  get_db_connection : σ → DatabaseType → Except Error DatabaseReadyInfo × σ
  get_secrets : σ → Except Error (BTreeMap String String) × σ
  get_metadata : σ → DeploymentMetadata

/-- `get_metadata` lifted into the fallible shape of the other two factory
methods, to state that it has no error case. -/
def Factory.get_metadata_lifted {σ : Type} (f : Factory σ) (s : σ) :
    Except Error DeploymentMetadata :=
  Except.ok (f.get_metadata s)

/-! ### Socket addresses and their `Display` rendering

`Service::health_check` formats the bound `std::net::SocketAddr` into the URL
string.  The rendering below follows the Rust standard library `Display`
implementations for `Ipv4Addr`, `Ipv6Addr`, `SocketAddrV4` and `SocketAddrV6`
(dotted decimal quad; RFC 5952 grouped hex with the first longest run of at
least two zero groups compressed to `::`, with the unspecified, loopback and
IPv4-mapped addresses special-cased; `[`…`]:port` bracketing for IPv6, with
a nonzero scope id rendered as `[`…`%scope_id]:port` since Rust 1.58).
`SocketAddrV6` carries its flow-info and scope-id fields; flow-info does not
take part in `Display`. -/

/-- The decimal digit character for `d < 10`. -/
def digitChar (d : Nat) : Char := Char.ofNat (48 + d)

/-- The lowercase hexadecimal digit character for `d < 16` (as produced by
Rust's `{:x}` formatting). -/
def hexDigitChar (d : Nat) : Char :=
  if d < 10 then Char.ofNat (48 + d) else Char.ofNat (87 + d)

/-- Decimal rendering of a natural number, most significant digit first
(Rust `{}` on unsigned integers). -/
def decChars (n : Nat) : List Char :=
  if n = 0 then ['0'] else ((Nat.digits 10 n).map digitChar).reverse

/-- Lowercase hexadecimal rendering of a natural number, most significant
digit first (Rust `{:x}`). -/
def hexChars (n : Nat) : List Char :=
  if n = 0 then ['0'] else ((Nat.digits 16 n).map hexDigitChar).reverse

/-- `std::net::Ipv4Addr`: four octets. -/
structure Ipv4Addr where
  a : Fin 256
  b : Fin 256
  c : Fin 256
  d : Fin 256

/-- `std::net::Ipv6Addr`: eight 16-bit segments. -/
structure Ipv6Addr where
  s0 : Fin 65536
  s1 : Fin 65536
  s2 : Fin 65536
  s3 : Fin 65536
  s4 : Fin 65536
  s5 : Fin 65536
  s6 : Fin 65536
  s7 : Fin 65536

/-- The segment list of an IPv6 address. -/
def Ipv6Addr.segList (ip : Ipv6Addr) : List Nat :=
  [ip.s0.val, ip.s1.val, ip.s2.val, ip.s3.val, ip.s4.val, ip.s5.val, ip.s6.val, ip.s7.val]

/-- `std::net::SocketAddr`: either a `SocketAddrV4` (ip, port) or a
`SocketAddrV6` (ip, port, flowinfo, scope_id). -/
inductive SocketAddr where
  | V4 (ip : Ipv4Addr) (port : Fin 65536)
  | V6 (ip : Ipv6Addr) (port : Fin 65536) (flowinfo : Fin U32_BOUND) (scope_id : Fin U32_BOUND)

/-- The scope id of an address (0 for IPv4, which has none). -/
def SocketAddr.scopeVal : SocketAddr → Nat
  | SocketAddr.V4 _ _ => 0
  | SocketAddr.V6 _ _ _ scope => scope.val

/-- Dotted-quad rendering of four octet values (Rust `Display for Ipv4Addr`). -/
def ipv4Chars (a b c d : Nat) : List Char :=
  decChars a ++ '.' :: decChars b ++ '.' :: decChars c ++ '.' :: decChars d

/-- Pieces joined by a separator character (no trailing separator). -/
def joinSep (c : Char) : List (List Char) → List Char
  | [] => []
  | [p] => p
  | p :: ps => p ++ c :: joinSep c ps

/-- Length of the initial run of zeros of a list. -/
def zeroRunLen : List Nat → Nat
  | 0 :: t => zeroRunLen t + 1
  | _ => 0

/-- Start index and length of the first longest run of zeros (Rust
`Display for Ipv6Addr` keeps the first run on ties, because it replaces the
best span only on strictly greater length). -/
def longestZeroRun : List Nat → Nat × Nat
  | [] => (0, 0)
  | 0 :: t =>
      if (longestZeroRun (t.drop (zeroRunLen t))).2 > zeroRunLen t + 1 then
        (zeroRunLen t + 1 + (longestZeroRun (t.drop (zeroRunLen t))).1,
         (longestZeroRun (t.drop (zeroRunLen t))).2)
      else
        (0, zeroRunLen t + 1)
  | _ :: t => ((longestZeroRun t).1 + 1, (longestZeroRun t).2)
termination_by l => l.length
decreasing_by
  all_goals simp [List.length_drop]
  omega

/-- The text between the brackets of a rendered IPv6 socket address
(Rust `Display for Ipv6Addr`): `::` for the unspecified address, `::1` for
loopback, `::ffff:a.b.c.d` for IPv4-mapped addresses, otherwise grouped
lowercase hex with the first longest zero run of length at least two
compressed. -/
def ipv6InnerChars (segs : List Nat) : List Char :=
  if segs = [0, 0, 0, 0, 0, 0, 0, 0] then [':', ':']
  else if segs = [0, 0, 0, 0, 0, 0, 0, 1] then [':', ':', '1']
  else if segs.take 6 = [0, 0, 0, 0, 0, 65535] then
    ':' :: ':' :: (hexChars 65535 ++ ':' ::
      ipv4Chars (segs.getD 6 0 / 256) (segs.getD 6 0 % 256)
        (segs.getD 7 0 / 256) (segs.getD 7 0 % 256))
  else
    if 2 ≤ (longestZeroRun segs).2 then
      joinSep ':' ((segs.take (longestZeroRun segs).1).map hexChars) ++
        ':' :: ':' ::
        joinSep ':' ((segs.drop ((longestZeroRun segs).1 + (longestZeroRun segs).2)).map hexChars)
    else
      joinSep ':' (segs.map hexChars)

/-- `Display` of a socket address as a character list: `a.b.c.d:port` for
IPv4, `[inner]:port` for IPv6 with zero scope id, `[inner%scope]:port`
otherwise (Rust `Display for SocketAddrV6`, which ignores flow-info). -/
def sockAddrChars : SocketAddr → List Char
  | SocketAddr.V4 ip port =>
      ipv4Chars ip.a.val ip.b.val ip.c.val ip.d.val ++ ':' :: decChars port.val
  | SocketAddr.V6 ip port _flow scope =>
      if scope.val = 0 then
        '[' :: (ipv6InnerChars ip.segList ++ ']' :: ':' :: decChars port.val)
      else
        '[' :: (ipv6InnerChars ip.segList ++
          '%' :: (decChars scope.val ++ ']' :: ':' :: decChars port.val))

/-- `Display` of a socket address as a string. -/
def sockAddrString (addr : SocketAddr) : String := String.mk (sockAddrChars addr)

/-! ### A model of `reqwest::Url::parse` on health-check URLs

`Url::parse` follows the WHATWG URL standard.  The checker below validates a
URL of a special (`http`) scheme: scheme prefix, authority (bracketed IPv6
host per the WHATWG IPv6 parser, or a hostname that, since it ends in a
number, must be a valid IPv4 dotted quad), optional decimal port up to 65535,
and a path.  Where the standard is lenient (octal/hex IPv4 parts, extra host
code points, percent-encoding) the checker is strict, so acceptance here
implies acceptance by the standard parser. -/

/-- Split at the first occurrence of `c`: `some (before, after)` with `c`
removed, or `none` when `c` does not occur. -/
def splitFirst (c : Char) : List Char → Option (List Char × List Char)
  | [] => none
  | x :: xs =>
      if x = c then some ([], xs)
      else (splitFirst c xs).map (fun p => (x :: p.1, p.2))

/-- Strip an expected leading character sequence. -/
def stripPrefixChars : List Char → List Char → Option (List Char)
  | [], s => some s
  | _ :: _, [] => none
  | p :: ps, x :: xs => if x = p then stripPrefixChars ps xs else none

/-- Split on every occurrence of `c` (like `str::split`): `n` separators
yield `n + 1` pieces, empty pieces included. -/
def splitOnChar (c : Char) : List Char → List (List Char)
  | [] => [[]]
  | x :: xs =>
      if x = c then [] :: splitOnChar c xs
      else
        match splitOnChar c xs with
        | [] => [[x]]
        | y :: ys => (x :: y) :: ys

/-- ASCII hexadecimal digit (either case). -/
def isHexDigitChar (c : Char) : Bool :=
  (48 ≤ c.toNat && c.toNat ≤ 57) || (97 ≤ c.toNat && c.toNat ≤ 102) ||
    (65 ≤ c.toNat && c.toNat ≤ 70)

/-- Characters the checker allows in a non-bracketed hostname (a strict
subset of what the WHATWG host parser allows). -/
def isRegNameChar (c : Char) : Bool :=
  c.isAlphanum || c = '.' || c = '-' || c = '_'

/-- Characters the checker allows in the path (a strict subset of WHATWG
path code points; enough for the fixed health path). -/
def isPathChar (c : Char) : Bool :=
  c.isAlphanum || c = '/' || c = '_'

/-- Decimal value of a digit string, most significant digit first. -/
def decValue (p : List Char) : Nat :=
  p.foldl (fun a c => a * 10 + (c.toNat - 48)) 0

/-- One decimal part of an IPv4 dotted quad: nonempty, all digits, no
leading zero (unless the part is exactly `0`), value at most 255. -/
def isDecOctet (p : List Char) : Bool :=
  !p.isEmpty && p.all Char.isDigit && (p.length == 1 || !(p.headD ' ' = '0')) &&
    decValue p ≤ 255

/-- A valid IPv4 dotted quad: exactly four decimal octets. -/
def isIpv4Quad (p : List Char) : Bool :=
  match splitOnChar '.' p with
  | [q1, q2, q3, q4] => isDecOctet q1 && isDecOctet q2 && isDecOctet q3 && isDecOctet q4
  | _ => false

/-- One hexadecimal piece of an IPv6 address: one to four hex digits
(the WHATWG IPv6 parser reads at most four). -/
def isHexPiece (p : List Char) : Bool :=
  !p.isEmpty && decide (p.length ≤ 4) && p.all isHexDigitChar

/-- The number of 16-bit pieces encoded by a piece list whose last entry may
be an embedded IPv4 quad (which encodes two pieces). -/
def countPieces (ps : List (List Char)) : Nat :=
  ps.length +
    match ps.getLast? with
    | some p => if isIpv4Quad p then 1 else 0
    | none => 0

/-- Validity of a run of pieces ending the address: every piece is a hex
piece, except that the final one may instead be an embedded IPv4 quad. -/
def validTailPieces (ps : List (List Char)) : Bool :=
  ps.dropLast.all isHexPiece &&
    match ps.getLast? with
    | some p => isHexPiece p || isIpv4Quad p
    | none => true

/-- Split a piece list as `X ++ [empty] ++ R` at the first empty piece;
`none` when every piece is nonempty. -/
def splitAtEmpty : List (List Char) → Option (List (List Char) × List (List Char))
  | [] => none
  | p :: rest =>
      if p.isEmpty then some ([], rest)
      else (splitAtEmpty rest).map (fun q => (p :: q.1, q.2))

/-- Validity of a piece list containing an empty piece: the empty pieces
must form exactly one `::` (leading, trailing, middle, or the whole address),
the surrounding pieces must be valid, and at most seven explicit pieces are
allowed (the compression stands for at least one zero piece). -/
def compressedOk (ps : List (List Char)) : Bool :=
  match splitAtEmpty ps with
  | none => false
  | some (x, r) =>
      if x.isEmpty then
        match r with
        | [] :: r2 =>
            (r2 == [([] : List Char)]) ||
              (!r2.isEmpty && r2.all (fun p => !p.isEmpty) && validTailPieces r2 &&
                decide (countPieces r2 ≤ 7))
        | _ => false
      else
        match r with
        | [] => false
        | [[]] => x.all isHexPiece && decide (x.length ≤ 7)
        | [] :: _ => false
        | ys =>
            ys.all (fun p => !p.isEmpty) && x.all isHexPiece && validTailPieces ys &&
              decide (x.length + countPieces ys ≤ 7)

/-- The WHATWG IPv6 host parser as a validity checker on the text between
the brackets. -/
def validInner (s : List Char) : Bool :=
  if (splitOnChar ':' s).any List.isEmpty then compressedOk (splitOnChar ':' s)
  else validTailPieces (splitOnChar ':' s) && countPieces (splitOnChar ':' s) == 8

/-- A valid port: decimal digits with value at most 65535. -/
def validPort (p : List Char) : Bool :=
  p.all Char.isDigit && decValue p ≤ 65535

/-- Whether a hostname ends in a number (last dot-separated label nonempty
and all digits), in which case the WHATWG host parser requires it to be a
valid IPv4 address. -/
def endsInNumber (h : List Char) : Bool :=
  match (splitOnChar '.' h).getLast? with
  | some p => !p.isEmpty && p.all Char.isDigit
  | none => false

/-- A valid non-bracketed hostname. -/
def validHostName (h : List Char) : Bool :=
  !h.isEmpty && h.all isRegNameChar && (!endsInNumber h || isIpv4Quad h)

/-- A valid authority: either `[` ipv6 `]` with an optional `:port`, or a
hostname with an optional `:port`. -/
def validAuthority (auth : List Char) : Bool :=
  match auth with
  | '[' :: rest =>
      match splitFirst ']' rest with
      | none => false
      | some (inner, tail) =>
          validInner inner &&
            match tail with
            | [] => true
            | ':' :: p => p.isEmpty || validPort p
            | _ => false
  | _ =>
      match splitFirst ':' auth with
      | none => validHostName auth
      | some (h, p) => validHostName h && (p.isEmpty || validPort p)

/-- The URL validity checker: `http://` scheme prefix, then a nonempty
authority up to the first `/`, then the path. -/
def urlParses (s : List Char) : Bool :=
  match stripPrefixChars ("http://".data) s with
  | none => false
  | some rest =>
      match splitFirst '/' rest with
      | none => !rest.isEmpty && validAuthority rest
      | some (auth, path) => !auth.isEmpty && validAuthority auth && path.all isPathChar

/-! ### The `Service` trait (lib.rs lines 94-121) -/

/-- The fixed well-known health path of the default health check. -/
def healthCheckPath : String := "/_shuttle/healthz"

/-- The URL string `format!("http://{addr}/_shuttle/healthz")` built by the
default `Service::health_check` (lib.rs line 108). -/
def healthCheckUrl (addr : SocketAddr) : String :=
  "http://" ++ sockAddrString addr ++ healthCheckPath

/-- The observable behaviour of HTTP GET (`reqwest::get`): for a URL, either a
transport error rendered as its message string, or a response status code. -/
def HttpGet : Type := String → Except String Nat

/-- `reqwest::StatusCode::is_success`: the status is in the 2xx range. -/
def isSuccessStatus (status : Nat) : Bool := 200 ≤ status && status < 300

/-- The default `Service::health_check` body (lib.rs lines 107-115): build
the health URL and `Url::parse(...).unwrap()` it — when the parse fails the
unwrap panics, modelled as `none`, and no GET is issued.  Otherwise GET the
URL; a transport error is mapped to `HeathCheckFailed` carrying the error's
message; a response with a non-2xx status yields `HeathCheckFailed` with
reason "Health check unsuccessful"; a 2xx status yields `Ok(())`. -/
def health_check_default (addr : SocketAddr) (get : HttpGet) :
    Option (Except Error Unit) :=
  if urlParses (healthCheckUrl addr).data then
    some (match get (healthCheckUrl addr) with
      | Except.error e => Except.error (Error.HeathCheckFailed e)
      | Except.ok status =>
          if isSuccessStatus status then Except.ok ()
          else Except.error (Error.HeathCheckFailed "Health check unsuccessful"))
  else none

/-- `trait Service` (lib.rs lines 94-121) over the service state `σ`: the
`IDLE` associated constant and the three lifecycle entry points.  Async
methods are embedded as pure functions; the default health check threads the
HTTP effect as an explicit argument. -/
structure Service (σ : Type) where
  IDLE : Idle
  bind : σ → SocketAddr → Except Error Unit
  health_check : σ → SocketAddr → HttpGet → Option (Except Error Unit)
  shutdown : σ → Except Error Unit

/-- A `Service` implementation that provides `bind` and leaves `IDLE`,
`health_check` and `shutdown` at the trait defaults (lib.rs lines 96, 107-115
and 118-120). -/
def Service.mkDefault {σ : Type} (bind : σ → SocketAddr → Except Error Unit) : Service σ :=
  ⟨Idle.DoIdle thirtySeconds,
   bind,
   fun _ addr get => health_check_default addr get,
   fun _ => Except.ok ()⟩

/-! ### The `ResourceBuilder` trait and the deployment step -/

/-- Modelled from the spec: `shuttle_common::resource::Type` (source not
included); the resource-kind tag that keys a concrete builder. -/
abbrev ResourceType := String

/-- `trait ResourceBuilder<T>` (lib.rs lines 55-84) over builder state `B`,
config type `C`, output type `O`, resource type `T` and factory state `σ`:
the `TYPE` associated constant, `new`, `config` (a projection of builder
state), `output` (async provisioning; consumes the builder by value and
receives `&mut dyn Factory`, embedded as state passing) and `build`, whose
Rust signature `async fn build(build_data: &Self::Output) -> Result<T, Error>`
receives no builder instance at all — only the output value. -/
structure ResourceBuilder (σ B C O T : Type) where
  TYPE : ResourceType
  new : B
  config : B → C
  output : B → Factory σ → σ → Except Error O × σ
  build : O → Except Error T

/-- The construction step run by the platform for a given builder instance
`b`: per the trait signature, `build` can only be given the output value, so
`b` cannot influence the result. -/
def buildStep {σ B C O T : Type} (rb : ResourceBuilder σ B C O T) (_b : B) (o : O) :
    Except Error T :=
  rb.build o

/-- Observable provisioning events of one deployment of one resource slot. -/
inductive DeployEvent where
  | outputCalled
  | buildCalled
  deriving DecidableEq, Repr

/-- Modelled from the spec: the cache-miss path of the per-resource deployment
step (the driving code is generated by the code generator / deployer, which is
not among the sources; spec sections 2, 4.1 and 8): call `output`; on success
persist the new output under the serialized-config key and call `build` on it;
on failure keep the prior cache entry and abort construction. -/
def deployMiss {σ B C O T : Type} (rb : ResourceBuilder σ B C O T) (b : B)
    (key : List Nat) (old : Option (List Nat × O)) (fac : Factory σ) (fs : σ) :
    Except Error T × Option (List Nat × O) × List DeployEvent :=
  match (rb.output b fac fs).1 with
  | Except.ok out =>
      (rb.build out, some (key, out), [DeployEvent.outputCalled, DeployEvent.buildCalled])
  | Except.error e => (Except.error e, old, [DeployEvent.outputCalled])

/-- Modelled from the spec: the per-resource deployment step run by the
platform (driving code generated outside the sources; spec sections 2, 4.1
and 8, and the `ResourceBuilder::config` doc comment, lib.rs lines 68-73):
compute the builder's config, serialize it, consult the cached entry; when the
serialized config equals the cached key, skip `output` entirely and pass the
previously persisted output to `build`; otherwise provision.  Returns the
construction result, the cache entry after the deployment, and the event
trace. -/
def deployResource {σ B C O T : Type} (rb : ResourceBuilder σ B C O T)
    (ser : C → List Nat) (cache : Option (List Nat × O)) (fac : Factory σ) (fs : σ) :
    Except Error T × Option (List Nat × O) × List DeployEvent :=
  match cache with
  | some (k, out) =>
      if ser (rb.config rb.new) = k then
        (rb.build out, some (k, out), [DeployEvent.buildCalled])
      else
        deployMiss rb rb.new (ser (rb.config rb.new)) (some (k, out)) fac fs
  | none => deployMiss rb rb.new (ser (rb.config rb.new)) none fac fs


/-! ### Concrete values used by the witnesses -/

/-- The socket address `127.0.0.1:8000`. -/
def localhost8000 : SocketAddr := SocketAddr.V4 ⟨127, 0, 0, 1⟩ 8000

/-- The link-local socket address `[fe80::1%3]:8080`: IPv6 `fe80::1`
(0xfe80 = 65152), port 8080, flow-info 0, scope id 3. -/
def scopedLinkLocal : SocketAddr :=
  SocketAddr.V6 ⟨65152, 0, 0, 0, 0, 0, 0, 1⟩ 8080 0 3

/-- A concrete deployment metadata value. -/
def exMetadata : DeploymentMetadata := ⟨Environment.Local, "example"⟩

/-- A concrete factory over trivial state. -/
def exFactory : Factory Unit :=
  ⟨fun s _ => (Except.ok ⟨"postgres://localhost"⟩, s),
   fun s => (Except.ok ⟨[("API_KEY", "hunter2")], List.pairwise_singleton _ _⟩, s),
   fun _ => exMetadata⟩

/-- A concrete factory whose secrets fetch fails. -/
def exFailFactory : Factory Unit :=
  ⟨fun s _ => (Except.error (Error.Provisioning "capacity"), s),
   fun s => (Except.error (Error.Provisioning "auth"), s),
   fun _ => exMetadata⟩

/-- A concrete resource builder: config `5`, provisioned output `7`,
construction adds one. -/
def exBuilder : ResourceBuilder Unit Unit Nat Nat Nat :=
  ⟨"database", (), fun _ => 5, fun _ _ s => (Except.ok 7, s), fun o => Except.ok (o + 1)⟩

/-- A serializer for `Nat` configs. -/
def exSer : Nat → List Nat := fun c => [c]

/-! ## Theorems -/

/-- C2: when the second deployment's serialized config equals the key cached
by a first deployment whose provisioning succeeded with output `out1`, the
second deployment's trace contains no `output` call and its construction
result is `build` applied to the cached `out1`. -/
theorem deploy_cache_hit_skips_output (σ B C O T : Type)
    (rb1 rb2 : ResourceBuilder σ B C O T) (ser : C → List Nat)
    (fac1 fac2 : Factory σ) (fs1 fs2 : σ) (out1 : O)
    (h1 : (rb1.output rb1.new fac1 fs1).1 = Except.ok out1)
    (h2 : ser (rb2.config rb2.new) = ser (rb1.config rb1.new)) :
    (deployResource rb2 ser (deployResource rb1 ser none fac1 fs1).2.1 fac2 fs2).2.2 =
      [DeployEvent.buildCalled] ∧
    DeployEvent.outputCalled ∉
      (deployResource rb2 ser (deployResource rb1 ser none fac1 fs1).2.1 fac2 fs2).2.2 ∧
    (deployResource rb2 ser (deployResource rb1 ser none fac1 fs1).2.1 fac2 fs2).1 =
      rb2.build out1 := by
  have hc : (deployResource rb1 ser none fac1 fs1).2.1 =
      some (ser (rb1.config rb1.new), out1) := by
    simp [deployResource, deployMiss, h1]
  rw [hc]
  refine ⟨?_, ?_, ?_⟩ <;> simp [deployResource, h2]

/-- C2 witness: a concrete second deployment with an equal serialized config
reuses the cached output `7` (building `8`) with a trace free of `output`
calls. -/
theorem deploy_cache_hit_skips_output_witness :
    (deployResource exBuilder exSer
        (deployResource exBuilder exSer none exFactory ()).2.1 exFactory ()).2.2 =
      [DeployEvent.buildCalled] ∧
    (deployResource exBuilder exSer
        (deployResource exBuilder exSer none exFactory ()).2.1 exFactory ()).1 =
      Except.ok 8 :=
  ⟨(deploy_cache_hit_skips_output Unit Unit Nat Nat Nat exBuilder exBuilder exSer
      exFactory exFactory () () 7 rfl rfl).1,
   (deploy_cache_hit_skips_output Unit Unit Nat Nat Nat exBuilder exBuilder exSer
      exFactory exFactory () () 7 rfl rfl).2.2⟩

/-- C3: `build` receives only the output value, never the builder instance,
so the construction step is independent of builder-instance state and
deterministic; in particular a cache-hit replay with an output produced
earlier evaluates to exactly `build` of that output. -/
theorem build_independent_of_builder_state (σ B C O T : Type)
    (rb : ResourceBuilder σ B C O T) (b1 b2 : B) (o : O) (ser : C → List Nat)
    (fac : Factory σ) (fs : σ) :
    buildStep rb b1 o = buildStep rb b2 o ∧
    buildStep rb b1 o = rb.build o ∧
    (deployResource rb ser (some (ser (rb.config rb.new), o)) fac fs).1 = rb.build o :=
  ⟨rfl, rfl, by simp [deployResource]⟩

/-- C4: a service is associated with exactly one idle policy, the `IDLE`
constant; a service that keeps the trait default gets
`Idle::DoIdle(NonZeroU32::new_unchecked(30))`, a 30-second threshold. -/
theorem service_idle_default (σ : Type) (s : Service σ)
    (bind : σ → SocketAddr → Except Error Unit) :
    (Service.mkDefault bind).IDLE = Idle.DoIdle thirtySeconds ∧
    thirtySeconds.val = 30 ∧
    ∃! p : Idle, s.IDLE = p :=
  ⟨rfl, rfl, ⟨s.IDLE, rfl, fun _ h => h.symm⟩⟩

/-- C5: every `DoIdle` policy carries a positive threshold (the `NonZeroU32`
invariant), and the default's `new_unchecked(30)` construction satisfies the
nonzero precondition. -/
theorem doidle_threshold_positive (p : Idle) (nz : NonZeroU32)
    (_h : p.threshold? = some nz) :
    0 < nz.val ∧ nz.val < U32_BOUND :=
  ⟨nz.pos, nz.lt_bound⟩

/-- C5 witness: the default policy's threshold is `30`, which is indeed
positive and in 32-bit range. -/
theorem doidle_threshold_positive_witness :
    (Idle.DoIdle thirtySeconds).threshold? = some thirtySeconds ∧
    0 < thirtySeconds.val ∧ thirtySeconds.val < U32_BOUND :=
  ⟨rfl, doidle_threshold_positive (Idle.DoIdle thirtySeconds) thirtySeconds rfl⟩

/-- C6: the default `Service::shutdown` returns `Ok(())` unconditionally. -/
theorem shutdown_default_ok (σ : Type) (bind : σ → SocketAddr → Except Error Unit)
    (s : σ) :
    (Service.mkDefault bind).shutdown s = Except.ok () :=
  rfl

/-- C7: `Factory::get_metadata` is synchronous and infallible: it returns the
metadata value directly, and lifted into the fallible shape of the other
factory methods it is never an error. -/
theorem get_metadata_infallible (σ : Type) (f : Factory σ) (s : σ) :
    f.get_metadata_lifted s = Except.ok (f.get_metadata s) ∧
    (∃ m : DeploymentMetadata, f.get_metadata_lifted s = Except.ok m) ∧
    ∀ e, f.get_metadata_lifted s ≠ Except.error e := by
  refine ⟨rfl, ⟨f.get_metadata s, rfl⟩, ?_⟩
  intro e h
  simp [Factory.get_metadata_lifted] at h

/-- C7 witness: the concrete factory's metadata is returned directly and is
no error. -/
theorem get_metadata_infallible_witness :
    exFactory.get_metadata_lifted () = Except.ok exMetadata ∧
    exFactory.get_metadata_lifted () ≠ Except.error (Error.Provisioning "down") :=
  ⟨(get_metadata_infallible Unit exFactory ()).1,
   (get_metadata_infallible Unit exFactory ()).2.2 (Error.Provisioning "down")⟩

/-- C8: `Factory::get_secrets` is all-or-nothing: every call returns either
the complete mapping, whose keys are unique, or an error, never a partial
mapping. -/
theorem get_secrets_all_or_nothing (σ : Type) (f : Factory σ) (s : σ) :
    (∃ m s2, f.get_secrets s = (Except.ok m, s2) ∧ (m.entries.map Prod.fst).Nodup) ∨
    (∃ e s2, f.get_secrets s = (Except.error e, s2)) := by
  rcases hg : f.get_secrets s with ⟨r, s2⟩
  cases r with
  | ok m =>
      left
      exact ⟨m, s2, rfl, List.pairwise_map.mpr (m.sorted.imp fun h => ne_of_lt h)⟩
  | error e => right; exact ⟨e, s2, rfl⟩

/-- C8 witness: the concrete factory returns its whole secret bundle with
unique keys, and the failing factory returns an error with no mapping. -/
theorem get_secrets_all_or_nothing_witness :
    ((∃ m s2, exFactory.get_secrets () = (Except.ok m, s2) ∧
        (m.entries.map Prod.fst).Nodup) ∨
      (∃ e s2, exFactory.get_secrets () = (Except.error e, s2))) ∧
    ((∃ m s2, exFailFactory.get_secrets () = (Except.ok m, s2) ∧
        (m.entries.map Prod.fst).Nodup) ∨
      (∃ e s2, exFailFactory.get_secrets () = (Except.error e, s2))) :=
  ⟨get_secrets_all_or_nothing Unit exFactory (),
   get_secrets_all_or_nothing Unit exFailFactory ()⟩

/-- Helper: a deployment's event trace is one of three concrete shapes. -/
theorem deployResource_trace_shapes (σ B C O T : Type)
    (rb : ResourceBuilder σ B C O T) (ser : C → List Nat)
    (cache : Option (List Nat × O)) (fac : Factory σ) (fs : σ) :
    (deployResource rb ser cache fac fs).2.2 = [DeployEvent.buildCalled] ∨
    (deployResource rb ser cache fac fs).2.2 =
      [DeployEvent.outputCalled, DeployEvent.buildCalled] ∨
    (deployResource rb ser cache fac fs).2.2 = [DeployEvent.outputCalled] := by
  have hmiss : ∀ (b : B) (key : List Nat) (old : Option (List Nat × O)),
      (deployMiss rb b key old fac fs).2.2 =
        [DeployEvent.outputCalled, DeployEvent.buildCalled] ∨
      (deployMiss rb b key old fac fs).2.2 = [DeployEvent.outputCalled] := by
    intro b key old
    cases h : (rb.output b fac fs).1 <;> simp [deployMiss, h]
  cases cache with
  | none => exact Or.inr (hmiss rb.new _ none)
  | some e =>
      by_cases hk : ser (rb.config rb.new) = e.1
      · left; simp [deployResource, hk]
      · right; have := hmiss rb.new (ser (rb.config rb.new)) (some e)
        simpa [deployResource, hk] using this

/-- C9: in every deployment of a resource slot, `output` is invoked at most
once, and every `output` event strictly precedes every `build` event. -/
theorem output_once_and_precedes_build (σ B C O T : Type)
    (rb : ResourceBuilder σ B C O T) (ser : C → List Nat)
    (cache : Option (List Nat × O)) (fac : Factory σ) (fs : σ) :
    (deployResource rb ser cache fac fs).2.2.count DeployEvent.outputCalled ≤ 1 ∧
    ∀ (i j : Nat) (hi : i < (deployResource rb ser cache fac fs).2.2.length)
      (hj : j < (deployResource rb ser cache fac fs).2.2.length),
      (deployResource rb ser cache fac fs).2.2.get ⟨i, hi⟩ = DeployEvent.outputCalled →
      (deployResource rb ser cache fac fs).2.2.get ⟨j, hj⟩ = DeployEvent.buildCalled →
      i < j := by
  rcases deployResource_trace_shapes σ B C O T rb ser cache fac fs with h | h | h <;>
    rw [h] <;>
    refine ⟨by simp [List.count_cons], ?_⟩ <;>
    intro i j hi hj h1 h2 <;>
    simp only [List.length_cons, List.length_nil] at hi hj <;>
    interval_cases i <;> interval_cases j <;> simp_all

/-- C9 witness: a concrete cache-miss deployment has the trace
`[outputCalled, buildCalled]`, a single `output` call at index 0 preceding
the `build` call at index 1. -/
theorem output_once_and_precedes_build_witness :
    (deployResource exBuilder exSer none exFactory ()).2.2.count
        DeployEvent.outputCalled ≤ 1 ∧
    (0 : Nat) < 1 :=
  ⟨(output_once_and_precedes_build Unit Unit Nat Nat Nat exBuilder exSer none
      exFactory ()).1,
   (output_once_and_precedes_build Unit Unit Nat Nat Nat exBuilder exSer none
      exFactory ()).2 0 1 (by decide) (by decide) (by decide) (by decide)⟩

/-! ### Helper lemmas for the URL-validity theorem -/

theorem mem_of_getLast?_eq {α : Type} {l : List α} {a : α} (h : l.getLast? = some a) :
    a ∈ l := by
  rcases List.mem_getLast?_eq_getLast (Option.mem_def.mpr h) with ⟨h', rfl⟩
  exact List.getLast_mem h'

theorem digitChar_isDigit {d : Nat} (h : d < 10) : (digitChar d).isDigit = true := by
  interval_cases d <;> decide

theorem digitChar_toNat {d : Nat} (h : d < 10) : (digitChar d).toNat = 48 + d := by
  interval_cases d <;> decide

theorem digitChar_ne_zero {d : Nat} (h0 : 0 < d) (h : d < 10) : digitChar d ≠ '0' := by
  interval_cases d <;> decide

theorem isDigit_ranges {c : Char} (h : c.isDigit = true) :
    c ≠ ':' ∧ c ≠ '.' ∧ c ≠ '/' ∧ c ≠ ']' ∧ c ≠ '[' := by
  refine ⟨?_, ?_, ?_, ?_, ?_⟩ <;> intro he <;> subst he <;> exact absurd h (by decide)

theorem isDigit_isHex {c : Char} (h : c.isDigit = true) : isHexDigitChar c = true := by
  simp only [Char.isDigit, Bool.and_eq_true, decide_eq_true_eq] at h
  obtain ⟨h1, h2⟩ := h
  simp only [isHexDigitChar, Bool.or_eq_true, Bool.and_eq_true, decide_eq_true_eq]
  exact Or.inl (Or.inl ⟨h1, h2⟩)

theorem hexDigitChar_isHex {d : Nat} (h : d < 16) : isHexDigitChar (hexDigitChar d) = true := by
  interval_cases d <;> decide

theorem isHex_ranges {c : Char} (h : isHexDigitChar c = true) :
    c ≠ ':' ∧ c ≠ '.' ∧ c ≠ '/' ∧ c ≠ ']' ∧ c ≠ '[' := by
  simp only [isHexDigitChar, Bool.or_eq_true, Bool.and_eq_true, decide_eq_true_eq] at h
  refine ⟨?_, ?_, ?_, ?_, ?_⟩ <;> intro he <;> subst he <;> simp_all

theorem decChars_ne_nil (n : Nat) : decChars n ≠ [] := by
  unfold decChars
  split
  · simp
  · simp_all [Nat.digits_ne_nil_iff_ne_zero]

theorem decChars_mem_isDigit {n : Nat} {c : Char} (hc : c ∈ decChars n) :
    c.isDigit = true := by
  unfold decChars at hc
  split at hc
  · simp only [List.mem_singleton] at hc
    subst hc
    decide
  · simp only [List.mem_reverse, List.mem_map] at hc
    obtain ⟨d, hd, rfl⟩ := hc
    exact digitChar_isDigit (Nat.digits_lt_base (by norm_num) hd)

theorem decValue_aux (l : List Nat) (acc : Nat) (hl : ∀ d ∈ l, d < 10) :
    List.foldl (fun a c => a * 10 + (c.toNat - 48)) acc ((l.map digitChar).reverse) =
      acc * 10 ^ l.length + Nat.ofDigits 10 l := by
  induction l generalizing acc with
  | nil => simp [Nat.ofDigits_nil]
  | cons d t ih =>
      have hd : d < 10 := hl d (List.mem_cons_self d t)
      have ht : ∀ x ∈ t, x < 10 := fun x hx => hl x (List.mem_cons_of_mem d hx)
      simp only [List.map_cons, List.reverse_cons, List.foldl_append, ih acc ht,
        List.foldl_cons, List.foldl_nil, digitChar_toNat hd, Nat.ofDigits_cons,
        List.length_cons, Nat.add_sub_cancel_left, pow_succ]
      ring

theorem decValue_decChars (n : Nat) : decValue (decChars n) = n := by
  by_cases h : n = 0
  · subst h; decide
  · unfold decValue decChars
    rw [if_neg h, decValue_aux _ 0 (fun d hd => Nat.digits_lt_base (by norm_num) hd)]
    simp [Nat.ofDigits_digits]

theorem decChars_cons (n : Nat) (h : n ≠ 0) :
    ∃ d rest, decChars n = digitChar d :: rest ∧ 0 < d ∧ d < 10 := by
  have hnil : Nat.digits 10 n ≠ [] := Nat.digits_ne_nil_iff_ne_zero.mpr h
  set l := Nat.digits 10 n with hl
  have hsplit : l = l.dropLast ++ [l.getLast hnil] := (List.dropLast_append_getLast hnil).symm
  refine ⟨l.getLast hnil, (l.dropLast.map digitChar).reverse, ?_, ?_, ?_⟩
  · unfold decChars
    rw [if_neg h, ← hl]
    conv_lhs => rw [hsplit]
    simp
  · exact Nat.pos_of_ne_zero (Nat.getLast_digit_ne_zero 10 h)
  · exact Nat.digits_lt_base (by norm_num) (List.getLast_mem hnil)

theorem isDecOctet_decChars {n : Nat} (h : n ≤ 255) : isDecOctet (decChars n) = true := by
  by_cases h0 : n = 0
  · subst h0; decide
  · obtain ⟨d, rest, hcons, hd0, hd10⟩ := decChars_cons n h0
    simp only [isDecOctet, Bool.and_eq_true, Bool.or_eq_true, beq_iff_eq,
      Bool.not_eq_true']
    refine ⟨⟨⟨?_, ?_⟩, ?_⟩, ?_⟩
    · simp [hcons]
    · rw [List.all_eq_true]
      intro c hc
      exact decChars_mem_isDigit hc
    · right
      rw [hcons]
      simp only [List.headD_cons]
      exact decide_eq_false (digitChar_ne_zero hd0 hd10)
    · simp [decValue_decChars n, h]

theorem hexChars_ne_nil (n : Nat) : hexChars n ≠ [] := by
  unfold hexChars
  split
  · simp
  · simp_all [Nat.digits_ne_nil_iff_ne_zero]

theorem hexChars_mem_isHex {n : Nat} {c : Char} (hc : c ∈ hexChars n) :
    isHexDigitChar c = true := by
  unfold hexChars at hc
  split at hc
  · simp only [List.mem_singleton] at hc
    subst hc
    decide
  · simp only [List.mem_reverse, List.mem_map] at hc
    obtain ⟨d, hd, rfl⟩ := hc
    exact hexDigitChar_isHex (Nat.digits_lt_base (by norm_num) hd)

theorem hexChars_len_le {n : Nat} (h : n < 65536) : (hexChars n).length ≤ 4 := by
  unfold hexChars
  split
  · simp
  · rename_i h0
    rw [List.length_reverse, List.length_map,
      Nat.digits_len 16 n (by norm_num) h0]
    have : Nat.log 16 n < 4 :=
      Nat.log_lt_of_lt_pow h0 (by norm_num at h ⊢; omega)
    omega

theorem isHexPiece_hexChars {n : Nat} (h : n < 65536) : isHexPiece (hexChars n) = true := by
  simp only [isHexPiece, Bool.and_eq_true, Bool.not_eq_true', decide_eq_true_eq]
  refine ⟨⟨?_, hexChars_len_le h⟩, ?_⟩
  · simp [List.isEmpty_iff, hexChars_ne_nil n]
  · rw [List.all_eq_true]
    intro c hc
    exact hexChars_mem_isHex hc

theorem splitOnChar_ne_nil (c : Char) (l : List Char) : splitOnChar c l ≠ [] := by
  induction l with
  | nil => simp [splitOnChar]
  | cons x xs ih =>
      rw [splitOnChar]
      split
      · simp
      · cases h : splitOnChar c xs with
        | nil => exact absurd h ih
        | cons y ys => simp [h]

theorem splitOnChar_no_sep {c : Char} {p : List Char} (h : ∀ a ∈ p, a ≠ c) :
    splitOnChar c p = [p] := by
  induction p with
  | nil => rfl
  | cons x xs ih =>
      have hx : x ≠ c := h x (List.mem_cons_self x xs)
      have hxs : splitOnChar c xs = [xs] :=
        ih (fun a ha => h a (List.mem_cons_of_mem x ha))
      rw [splitOnChar, if_neg hx, hxs]

theorem splitOnChar_sep_cons (c : Char) (t : List Char) :
    splitOnChar c (c :: t) = [] :: splitOnChar c t := by
  rw [splitOnChar, if_pos rfl]

theorem splitOnChar_append {c : Char} {g : List Char} (t : List Char)
    (h : ∀ a ∈ g, a ≠ c) :
    splitOnChar c (g ++ c :: t) = g :: splitOnChar c t := by
  induction g with
  | nil => simpa using splitOnChar_sep_cons c t
  | cons x g' ih =>
      have hx : x ≠ c := h x (List.mem_cons_self x g')
      have hg' : splitOnChar c (g' ++ c :: t) = g' :: splitOnChar c t :=
        ih (fun a ha => h a (List.mem_cons_of_mem x ha))
      rw [List.cons_append, splitOnChar, if_neg hx, hg']

theorem splitOnChar_joinSep {c : Char} {ps : List (List Char)} (hne : ps ≠ [])
    (h : ∀ p ∈ ps, ∀ a ∈ p, a ≠ c) :
    splitOnChar c (joinSep c ps) = ps := by
  induction ps with
  | nil => exact absurd rfl hne
  | cons p rest ih =>
      cases rest with
      | nil => exact splitOnChar_no_sep (h p (List.mem_cons_self p []))
      | cons q rest' =>
          have hj : joinSep c (p :: q :: rest') = p ++ c :: joinSep c (q :: rest') := rfl
          rw [hj, splitOnChar_append _ (h p (List.mem_cons_self p _)),
            ih (by simp) (fun r hr a ha => h r (List.mem_cons_of_mem p hr) a ha)]

theorem splitOnChar_joinSep_append {c : Char} {ps : List (List Char)} (t : List Char)
    (hne : ps ≠ []) (h : ∀ p ∈ ps, ∀ a ∈ p, a ≠ c) :
    splitOnChar c (joinSep c ps ++ c :: t) = ps ++ splitOnChar c t := by
  induction ps with
  | nil => exact absurd rfl hne
  | cons p rest ih =>
      cases rest with
      | nil =>
          have hj : joinSep c [p] = p := rfl
          rw [hj, splitOnChar_append _ (h p (List.mem_cons_self p [])), List.singleton_append]
      | cons q rest' =>
          have hj : joinSep c (p :: q :: rest') = p ++ c :: joinSep c (q :: rest') := rfl
          rw [hj, List.append_assoc, List.cons_append,
            splitOnChar_append _ (h p (List.mem_cons_self p _)),
            ih (by simp) (fun r hr a ha => h r (List.mem_cons_of_mem p hr) a ha)]
          simp

theorem splitFirst_append {c : Char} {g : List Char} (t : List Char)
    (h : ∀ a ∈ g, a ≠ c) :
    splitFirst c (g ++ c :: t) = some (g, t) := by
  induction g with
  | nil => simp [splitFirst]
  | cons x g' ih =>
      have hx : x ≠ c := h x (List.mem_cons_self x g')
      have hg' := ih (fun a ha => h a (List.mem_cons_of_mem x ha))
      rw [List.cons_append, splitFirst, if_neg hx, hg']
      rfl

theorem stripPrefixChars_append (p s : List Char) :
    stripPrefixChars p (p ++ s) = some s := by
  induction p with
  | nil => rfl
  | cons x p' ih => rw [List.cons_append, stripPrefixChars, if_pos rfl, ih]

theorem splitAtEmpty_append {x : List (List Char)} (r : List (List Char))
    (h : ∀ p ∈ x, p ≠ []) :
    splitAtEmpty (x ++ ([] : List Char) :: r) = some (x, r) := by
  induction x with
  | nil => rfl
  | cons p x' ih =>
      have hp : p ≠ [] := h p (List.mem_cons_self p x')
      have hpe : p.isEmpty = false := by simpa [List.isEmpty_iff] using hp
      rw [List.cons_append, splitAtEmpty, hpe]
      simp only [Bool.false_eq_true, if_false,
        ih (fun q hq => h q (List.mem_cons_of_mem p hq)), Option.map_some']

theorem isIpv4Quad_of_hexPiece {p : List Char} (h : isHexPiece p = true) :
    isIpv4Quad p = false := by
  have hdot : ∀ a ∈ p, a ≠ '.' := by
    intro a ha
    have h2 := h
    simp only [isHexPiece, Bool.and_eq_true, List.all_eq_true] at h2
    exact (isHex_ranges (h2.2 a ha)).2.1
  rw [isIpv4Quad, splitOnChar_no_sep hdot]

theorem validTailPieces_of_all_hex {ps : List (List Char)}
    (h : ps.all isHexPiece = true) : validTailPieces ps = true := by
  rw [validTailPieces]
  cases hl : ps.getLast? with
  | none =>
      have : ps = [] := List.getLast?_eq_none_iff.mp hl
      subst this
      rfl
  | some p =>
      have hp : isHexPiece p = true :=
        List.all_eq_true.mp h p (mem_of_getLast?_eq hl)
      have hd : ps.dropLast.all isHexPiece = true := by
        rw [List.all_eq_true]
        exact fun q hq => List.all_eq_true.mp h q (List.dropLast_subset ps hq)
      simp [hd, hp]

theorem countPieces_of_all_hex {ps : List (List Char)}
    (h : ps.all isHexPiece = true) : countPieces ps = ps.length := by
  rw [countPieces]
  cases hl : ps.getLast? with
  | none => rfl
  | some p =>
      have hp : isHexPiece p = true :=
        List.all_eq_true.mp h p (mem_of_getLast?_eq hl)
      simp [isIpv4Quad_of_hexPiece hp]

theorem map_hexChars_all_hexPiece {gs : List Nat} (h : ∀ g ∈ gs, g < 65536) :
    (gs.map hexChars).all isHexPiece = true := by
  rw [List.all_eq_true]
  intro p hp
  obtain ⟨g, hg, rfl⟩ := List.mem_map.mp hp
  exact isHexPiece_hexChars (h g hg)

theorem map_hexChars_all_nonempty (gs : List Nat) :
    (gs.map hexChars).all (fun p => !p.isEmpty) = true := by
  rw [List.all_eq_true]
  intro p hp
  obtain ⟨g, _, rfl⟩ := List.mem_map.mp hp
  simp [List.isEmpty_iff, hexChars_ne_nil g]

theorem map_hexChars_colon_free (gs : List Nat) :
    ∀ p ∈ gs.map hexChars, ∀ a ∈ p, a ≠ ':' := by
  intro p hp a ha
  obtain ⟨g, _, rfl⟩ := List.mem_map.mp hp
  exact (isHex_ranges (hexChars_mem_isHex ha)).1

theorem zeroRunLen_le (l : List Nat) : zeroRunLen l ≤ l.length := by
  induction l with
  | nil => simp [zeroRunLen]
  | cons x t ih =>
      cases x with
      | zero => simp only [zeroRunLen, List.length_cons]; omega
      | succ m => simp [zeroRunLen]

theorem zeroRunLen_take (l : List Nat) :
    l.take (zeroRunLen l) = List.replicate (zeroRunLen l) 0 := by
  induction l with
  | nil => simp [zeroRunLen]
  | cons x t ih =>
      cases x with
      | zero => simp [zeroRunLen, List.replicate_succ, ih]
      | succ m => simp [zeroRunLen]

theorem longestZeroRun_spec_aux (n : Nat) : ∀ (l : List Nat), l.length = n →
    (longestZeroRun l).1 + (longestZeroRun l).2 ≤ l.length ∧
    (l.drop (longestZeroRun l).1).take (longestZeroRun l).2 =
      List.replicate (longestZeroRun l).2 0 := by
  induction n using Nat.strong_induction_on with
  | _ n IH =>
      intro l hn
      cases l with
      | nil => subst hn; simp [longestZeroRun]
      | cons x t =>
          cases x with
          | zero =>
              rw [longestZeroRun]
              have hkle : zeroRunLen t ≤ t.length := zeroRunLen_le t
              have hrlen : (t.drop (zeroRunLen t)).length = t.length - zeroRunLen t :=
                List.length_drop _ _
              have hIH := IH (t.drop (zeroRunLen t)).length
                (by rw [hrlen]; simp only [List.length_cons] at hn; omega)
                (t.drop (zeroRunLen t)) rfl
              split
              · constructor
                · simp only [List.length_cons]
                  omega
                · have hd : List.drop (zeroRunLen t + 1 +
                      (longestZeroRun (t.drop (zeroRunLen t))).1) (0 :: t) =
                      List.drop (longestZeroRun (t.drop (zeroRunLen t))).1
                        (t.drop (zeroRunLen t)) := by
                    rw [List.drop_drop]
                    have : zeroRunLen t + 1 +
                        (longestZeroRun (t.drop (zeroRunLen t))).1 =
                        ((zeroRunLen t + (longestZeroRun (t.drop (zeroRunLen t))).1) + 1) := by
                      omega
                    rw [this, List.drop_succ_cons, ← List.drop_drop]
                  rw [hd]
                  exact hIH.2
              · constructor
                · simp only [List.length_cons]
                  omega
                · simp only [List.drop_zero, List.take_succ_cons,
                    zeroRunLen_take t, List.replicate_succ]
          | succ m =>
              rw [longestZeroRun]
              have hIH := IH t.length
                (by simp only [List.length_cons] at hn; omega) t rfl
              constructor
              · simp only [List.length_cons]
                omega
              · rw [List.drop_succ_cons]
                exact hIH.2
              · simp

theorem longestZeroRun_spec (l : List Nat) :
    (longestZeroRun l).1 + (longestZeroRun l).2 ≤ l.length ∧
    (l.drop (longestZeroRun l).1).take (longestZeroRun l).2 =
      List.replicate (longestZeroRun l).2 0 :=
  longestZeroRun_spec_aux l.length l rfl

theorem decChars_class {n : Nat} {a : Char} (ha : a ∈ decChars n) :
    a ≠ ':' ∧ a ≠ '.' ∧ a ≠ '/' ∧ a ≠ ']' ∧ a ≠ '[' :=
  isDigit_ranges (decChars_mem_isDigit ha)

theorem ipv4Chars_assoc (a b c d : Nat) :
    ipv4Chars a b c d =
      decChars a ++ '.' :: (decChars b ++ '.' :: (decChars c ++ '.' :: decChars d)) := by
  simp [ipv4Chars]

theorem ipv4Chars_mem {a b c d : Nat} {ch : Char} (h : ch ∈ ipv4Chars a b c d) :
    ch.isDigit = true ∨ ch = '.' := by
  rw [ipv4Chars_assoc] at h
  simp only [List.mem_append, List.mem_cons] at h
  rcases h with h | h | h | h | h | h | h <;>
    first
      | exact Or.inl (decChars_mem_isDigit h)
      | exact Or.inr h

theorem ipv4Chars_ne_nil (a b c d : Nat) : ipv4Chars a b c d ≠ [] := by
  rw [ipv4Chars_assoc]
  intro h
  exact decChars_ne_nil a (List.append_eq_nil.mp h).1

theorem splitDot_ipv4Chars (a b c d : Nat) :
    splitOnChar '.' (ipv4Chars a b c d) =
      [decChars a, decChars b, decChars c, decChars d] := by
  rw [ipv4Chars_assoc,
    splitOnChar_append _ (fun x hx => (decChars_class hx).2.1),
    splitOnChar_append _ (fun x hx => (decChars_class hx).2.1),
    splitOnChar_append _ (fun x hx => (decChars_class hx).2.1),
    splitOnChar_no_sep (fun x hx => (decChars_class hx).2.1)]

theorem isIpv4Quad_ipv4Chars {a b c d : Nat} (ha : a ≤ 255) (hb : b ≤ 255)
    (hc : c ≤ 255) (hd : d ≤ 255) : isIpv4Quad (ipv4Chars a b c d) = true := by
  rw [isIpv4Quad, splitDot_ipv4Chars]
  simp [isDecOctet_decChars, ha, hb, hc, hd]

theorem mem_joinSep {c : Char} {ps : List (List Char)} {a : Char}
    (h : a ∈ joinSep c ps) : a = c ∨ ∃ p ∈ ps, a ∈ p := by
  induction ps with
  | nil => simp [joinSep] at h
  | cons p rest ih =>
      cases rest with
      | nil =>
          right
          exact ⟨p, List.mem_cons_self p [], h⟩
      | cons q rest' =>
          have hj : joinSep c (p :: q :: rest') = p ++ c :: joinSep c (q :: rest') := rfl
          rw [hj] at h
          simp only [List.mem_append, List.mem_cons] at h
          rcases h with h | h | h
          · exact Or.inr ⟨p, List.mem_cons_self p _, h⟩
          · exact Or.inl h
          · rcases ih h with h' | ⟨r, hr, har⟩
            · exact Or.inl h'
            · exact Or.inr ⟨r, List.mem_cons_of_mem p hr, har⟩

theorem hexChars_ffff : hexChars 65535 = ['f', 'f', 'f', 'f'] := by
  norm_num [hexChars]
  decide

theorem ipv6Inner_class (segs : List Nat) :
    ∀ ch ∈ ipv6InnerChars segs, isHexDigitChar ch = true ∨ ch = ':' ∨ ch = '.' := by
  intro ch hch
  unfold ipv6InnerChars at hch
  split at hch
  · rcases List.mem_cons.mp hch with h | h
    · exact Or.inr (Or.inl h)
    · simp only [List.mem_singleton] at h
      exact Or.inr (Or.inl h)
  · split at hch
    · rcases List.mem_cons.mp hch with h | h
      · exact Or.inr (Or.inl h)
      · rcases List.mem_cons.mp h with h' | h'
        · exact Or.inr (Or.inl h')
        · simp only [List.mem_singleton] at h'
          subst h'
          exact Or.inl (by decide)
    · split at hch
      · rcases List.mem_cons.mp hch with h | h
        · exact Or.inr (Or.inl h)
        · rcases List.mem_cons.mp h with h' | h'
          · exact Or.inr (Or.inl h')
          · simp only [List.mem_append, List.mem_cons] at h'
            rcases h' with h2 | h2 | h2
            · exact Or.inl (hexChars_mem_isHex h2)
            · exact Or.inr (Or.inl h2)
            · rcases ipv4Chars_mem h2 with h3 | h3
              · exact Or.inl (isDigit_isHex h3)
              · exact Or.inr (Or.inr h3)
      · split at hch
        · simp only [List.mem_append, List.mem_cons] at hch
          rcases hch with h | h | h | h
          · rcases mem_joinSep h with h' | ⟨p, hp, hap⟩
            · exact Or.inr (Or.inl h')
            · obtain ⟨g, _, rfl⟩ := List.mem_map.mp hp
              exact Or.inl (hexChars_mem_isHex hap)
          · exact Or.inr (Or.inl h)
          · exact Or.inr (Or.inl h)
          · rcases mem_joinSep h with h' | ⟨p, hp, hap⟩
            · exact Or.inr (Or.inl h')
            · obtain ⟨g, _, rfl⟩ := List.mem_map.mp hp
              exact Or.inl (hexChars_mem_isHex hap)
        · rcases mem_joinSep hch with h' | ⟨p, hp, hap⟩
          · exact Or.inr (Or.inl h')
          · obtain ⟨g, _, rfl⟩ := List.mem_map.mp hp
            exact Or.inl (hexChars_mem_isHex hap)

theorem map_hexChars_any_isEmpty (gs : List Nat) :
    (gs.map hexChars).any List.isEmpty = false := by
  rw [Bool.eq_false_iff]
  intro h
  rcases List.any_eq_true.mp h with ⟨p, hp, hpe⟩
  obtain ⟨g, _, rfl⟩ := List.mem_map.mp hp
  exact hexChars_ne_nil g (List.isEmpty_iff.mp hpe)

theorem compressedOk_leading {m : List (List Char)}
    (hM : m ≠ []) (hall : m.all (fun p => !p.isEmpty) = true)
    (hvt : validTailPieces m = true) (hcount : countPieces m ≤ 7) :
    compressedOk ([] :: [] :: m) = true := by
  have h1 : splitAtEmpty ([] :: [] :: m) = some ([], [] :: m) := by
    simp [splitAtEmpty]
  simp only [compressedOk, h1, List.isEmpty_nil, if_true]
  rw [Bool.or_eq_true]
  right
  simp only [Bool.and_eq_true, decide_eq_true_eq]
  refine ⟨⟨⟨?_, hall⟩, hvt⟩, hcount⟩
  simp [List.isEmpty_iff, hM]

theorem compressedOk_trailing {x : List (List Char)}
    (hXne : ∀ p ∈ x, p ≠ []) (hX : x ≠ [])
    (hhex : x.all isHexPiece = true) (hlen : x.length ≤ 7) :
    compressedOk (x ++ [[], []]) = true := by
  have h1 : splitAtEmpty (x ++ [[], []]) = some (x, [[]]) :=
    splitAtEmpty_append [[]] hXne
  simp only [compressedOk, h1]
  have hxe : x.isEmpty = false := by simpa [List.isEmpty_iff] using hX
  simp only [hxe, Bool.false_eq_true, if_false, Bool.and_eq_true, decide_eq_true_eq]
  exact ⟨hhex, hlen⟩

theorem compressedOk_middle {x m : List (List Char)}
    (hXne : ∀ p ∈ x, p ≠ []) (hX : x ≠ [])
    (hhex : x.all isHexPiece = true)
    (p0 : List Char) (m' : List (List Char)) (hm : m = p0 :: m') (hp0 : p0 ≠ [])
    (hall : m.all (fun p => !p.isEmpty) = true)
    (hvt : validTailPieces m = true)
    (hcount : x.length + countPieces m ≤ 7) :
    compressedOk (x ++ ([] : List Char) :: m) = true := by
  have h1 : splitAtEmpty (x ++ ([] : List Char) :: m) = some (x, m) :=
    splitAtEmpty_append m hXne
  obtain ⟨c0, p0', rfl⟩ : ∃ c0 p0', p0 = c0 :: p0' := by
    cases p0 with
    | nil => exact absurd rfl hp0
    | cons c0 p0' => exact ⟨c0, p0', rfl⟩
  subst hm
  simp only [compressedOk, h1]
  have hxe : x.isEmpty = false := by simpa [List.isEmpty_iff] using hX
  simp only [hxe, Bool.false_eq_true, if_false, Bool.and_eq_true, decide_eq_true_eq]
  exact ⟨⟨⟨hall, hhex⟩, hvt⟩, hcount⟩

theorem innerUncompressed_valid {gs : List Nat} (hb : ∀ g ∈ gs, g < 65536)
    (hlen : gs.length = 8) :
    validInner (joinSep ':' (gs.map hexChars)) = true := by
  have hne : gs.map hexChars ≠ [] := by
    intro h
    have := congrArg List.length h
    simp [hlen] at this
  have hsplit := splitOnChar_joinSep hne (map_hexChars_colon_free gs)
  rw [validInner, hsplit, map_hexChars_any_isEmpty gs]
  simp only [Bool.false_eq_true, if_false, Bool.and_eq_true, beq_iff_eq]
  refine ⟨validTailPieces_of_all_hex (map_hexChars_all_hexPiece hb), ?_⟩
  rw [countPieces_of_all_hex (map_hexChars_all_hexPiece hb), List.length_map, hlen]

theorem innerCompressed_valid {pre post : List Nat}
    (hb1 : ∀ g ∈ pre, g < 65536) (hb2 : ∀ g ∈ post, g < 65536)
    (hlen : pre.length + post.length ≤ 6) (hne : pre ≠ [] ∨ post ≠ []) :
    validInner (joinSep ':' (pre.map hexChars) ++
      ':' :: ':' :: joinSep ':' (post.map hexChars)) = true := by
  cases pre with
  | nil =>
      have hpost : post ≠ [] := by
        rcases hne with h | h
        · exact absurd rfl h
        · exact h
      have hmne : post.map hexChars ≠ [] := by
        intro h
        exact hpost (List.map_eq_nil_iff.mp h)
      have hsplit : splitOnChar ':'
          (joinSep ':' (([] : List Nat).map hexChars) ++
            ':' :: ':' :: joinSep ':' (post.map hexChars)) =
          [] :: [] :: post.map hexChars := by
        simp only [List.map_nil, joinSep, List.nil_append]
        rw [splitOnChar_sep_cons, splitOnChar_sep_cons,
          splitOnChar_joinSep hmne (map_hexChars_colon_free post)]
      rw [validInner, hsplit]
      have hany : (([] : List Char) :: [] :: post.map hexChars).any List.isEmpty = true := by
        simp
      rw [hany, if_pos rfl]
      refine compressedOk_leading hmne (map_hexChars_all_nonempty post)
        (validTailPieces_of_all_hex (map_hexChars_all_hexPiece hb2)) ?_
      rw [countPieces_of_all_hex (map_hexChars_all_hexPiece hb2), List.length_map]
      omega
  | cons g0 pre' =>
      have hXne := map_hexChars_all_nonempty (g0 :: pre')
      have hXne' : ∀ p ∈ (g0 :: pre').map hexChars, p ≠ [] := by
        intro p hp
        obtain ⟨g, _, rfl⟩ := List.mem_map.mp hp
        exact hexChars_ne_nil g
      have hXcons : (g0 :: pre').map hexChars ≠ [] := by simp
      have hXhex := map_hexChars_all_hexPiece hb1
      cases post with
      | nil =>
          have hsplit : splitOnChar ':'
              (joinSep ':' ((g0 :: pre').map hexChars) ++
                ':' :: ':' :: joinSep ':' (([] : List Nat).map hexChars)) =
              (g0 :: pre').map hexChars ++ [[], []] := by
            simp only [List.map_nil, joinSep]
            rw [splitOnChar_joinSep_append _ hXcons (map_hexChars_colon_free _)]
            rfl
          rw [validInner, hsplit]
          have hany : ((g0 :: pre').map hexChars ++ [[], []]).any List.isEmpty = true := by
            simp
          rw [hany, if_pos rfl]
          refine compressedOk_trailing hXne' hXcons hXhex ?_
          rw [List.length_map]
          simp only [List.length_cons] at hlen ⊢
          omega
      | cons g1 post' =>
          have hmne : (g1 :: post').map hexChars ≠ [] := by simp
          have hsplit : splitOnChar ':'
              (joinSep ':' ((g0 :: pre').map hexChars) ++
                ':' :: ':' :: joinSep ':' ((g1 :: post').map hexChars)) =
              (g0 :: pre').map hexChars ++
                ([] : List Char) :: (g1 :: post').map hexChars := by
            rw [splitOnChar_joinSep_append _ hXcons (map_hexChars_colon_free _),
              splitOnChar_sep_cons,
              splitOnChar_joinSep hmne (map_hexChars_colon_free _)]
          rw [validInner, hsplit]
          have hany : ((g0 :: pre').map hexChars ++
              ([] : List Char) :: (g1 :: post').map hexChars).any List.isEmpty = true := by
            simp
          rw [hany, if_pos rfl]
          refine compressedOk_middle hXne' hXcons hXhex (hexChars g1)
            (post'.map hexChars) rfl (hexChars_ne_nil g1)
            (map_hexChars_all_nonempty (g1 :: post'))
            (validTailPieces_of_all_hex (map_hexChars_all_hexPiece hb2)) ?_
          rw [countPieces_of_all_hex (map_hexChars_all_hexPiece hb2)]
          rw [List.length_map, List.length_map]
          simp only [List.length_cons] at hlen ⊢
          omega

theorem innerMapped_valid {a b c d : Nat} (ha : a ≤ 255) (hb : b ≤ 255)
    (hc : c ≤ 255) (hd : d ≤ 255) :
    validInner (':' :: ':' :: (hexChars 65535 ++ ':' :: ipv4Chars a b c d)) = true := by
  have hffcolon : ∀ x ∈ hexChars 65535, x ≠ ':' :=
    fun x hx => (isHex_ranges (hexChars_mem_isHex hx)).1
  have hipv4colon : ∀ x ∈ ipv4Chars a b c d, x ≠ ':' := by
    intro x hx
    rcases ipv4Chars_mem hx with h | h
    · exact (isDigit_ranges h).1
    · subst h; decide
  have hsplit : splitOnChar ':' (':' :: ':' :: (hexChars 65535 ++ ':' :: ipv4Chars a b c d)) =
      [] :: [] :: [hexChars 65535, ipv4Chars a b c d] := by
    rw [splitOnChar_sep_cons, splitOnChar_sep_cons,
      splitOnChar_append _ hffcolon, splitOnChar_no_sep hipv4colon]
  rw [validInner, hsplit]
  have hany : (([] : List Char) :: [] ::
      [hexChars 65535, ipv4Chars a b c d]).any List.isEmpty = true := by
    simp
  rw [hany, if_pos rfl]
  refine compressedOk_leading (by simp) ?_ ?_ ?_
  · simp only [List.all_cons, List.all_nil, Bool.and_true, Bool.and_eq_true,
      Bool.not_eq_true']
    constructor
    · simpa [List.isEmpty_iff] using hexChars_ne_nil 65535
    · simpa [List.isEmpty_iff] using ipv4Chars_ne_nil a b c d
  · rw [validTailPieces]
    have hgl : ([hexChars 65535, ipv4Chars a b c d]).getLast? = some (ipv4Chars a b c d) := rfl
    rw [hgl]
    have hdrop : ([hexChars 65535, ipv4Chars a b c d]).dropLast = [hexChars 65535] := rfl
    rw [hdrop]
    simp only [List.all_cons, List.all_nil, Bool.and_true, Bool.and_eq_true, Bool.or_eq_true]
    exact ⟨isHexPiece_hexChars (by norm_num), Or.inr (isIpv4Quad_ipv4Chars ha hb hc hd)⟩
  · have hcp : countPieces [hexChars 65535, ipv4Chars a b c d] =
        2 + (if isIpv4Quad (ipv4Chars a b c d) = true then 1 else 0) := rfl
    rw [hcp, isIpv4Quad_ipv4Chars ha hb hc hd]
    simp

theorem validInner_ipv6Inner {segs : List Nat} (hb : ∀ g ∈ segs, g < 65536)
    (hlen : segs.length = 8) : validInner (ipv6InnerChars segs) = true := by
  rw [ipv6InnerChars]
  split
  · decide
  · split
    · decide
    · split
      · have hg6 : segs.getD 6 0 < 65536 := by
          have hm6 : segs.getD 6 0 ∈ segs := by
            rw [List.getD_eq_getElem segs 0 (by omega)]
            exact List.getElem_mem (by omega)
          exact hb _ hm6
        have hg7 : segs.getD 7 0 < 65536 := by
          have hm7 : segs.getD 7 0 ∈ segs := by
            rw [List.getD_eq_getElem segs 0 (by omega)]
            exact List.getElem_mem (by omega)
          exact hb _ hm7
        have h6d : segs.getD 6 0 / 256 ≤ 255 := by
          have h1 : segs.getD 6 0 / 256 ≤ 65535 / 256 := Nat.div_le_div_right (by omega)
          simpa using h1
        have h7d : segs.getD 7 0 / 256 ≤ 255 := by
          have h1 : segs.getD 7 0 / 256 ≤ 65535 / 256 := Nat.div_le_div_right (by omega)
          simpa using h1
        have h6m : segs.getD 6 0 % 256 ≤ 255 := by
          have h1 : segs.getD 6 0 % 256 < 256 := Nat.mod_lt _ (by norm_num)
          omega
        have h7m : segs.getD 7 0 % 256 ≤ 255 := by
          have h1 : segs.getD 7 0 % 256 < 256 := Nat.mod_lt _ (by norm_num)
          omega
        exact innerMapped_valid h6d h6m h7d h7m
      · rename_i hz hl hm
        have hspec := longestZeroRun_spec segs
        split
        · rename_i hk2
          refine innerCompressed_valid
            (fun g hg => hb g (List.take_subset _ segs hg))
            (fun g hg => hb g (List.drop_subset _ segs hg)) ?_ ?_
          · rw [List.length_take, List.length_drop, hlen]
            omega
          · by_contra hboth
            push_neg at hboth
            obtain ⟨hpre, hpost⟩ := hboth
            have hs0 : (longestZeroRun segs).1 = 0 := by
              rcases List.take_eq_nil_iff.mp hpre with h | h
              · exact h
              · rw [h] at hlen; simp at hlen
            have hk8 : (longestZeroRun segs).2 = 8 := by
              have := List.drop_eq_nil_iff.mp hpost
              rw [hlen] at hspec
              omega
            have hall : segs = List.replicate 8 0 := by
              have h2 := hspec.2
              rw [hs0, hk8, List.drop_zero] at h2
              rw [← h2, ← hlen, List.take_length]
            exact hz (by rw [hall]; rfl)
        · exact innerUncompressed_valid hb hlen

theorem validPort_decChars {p : Nat} (h : p ≤ 65535) : validPort (decChars p) = true := by
  simp only [validPort, Bool.and_eq_true, decide_eq_true_eq]
  refine ⟨List.all_eq_true.mpr (fun c hc => decChars_mem_isDigit hc), ?_⟩
  rw [decValue_decChars]
  exact h

theorem validHostName_ipv4 {a b c d : Nat} (ha : a ≤ 255) (hb : b ≤ 255)
    (hc : c ≤ 255) (hd : d ≤ 255) : validHostName (ipv4Chars a b c d) = true := by
  simp only [validHostName, Bool.and_eq_true, Bool.or_eq_true, Bool.not_eq_true']
  refine ⟨⟨?_, ?_⟩, Or.inr (isIpv4Quad_ipv4Chars ha hb hc hd)⟩
  · simpa [List.isEmpty_iff] using ipv4Chars_ne_nil a b c d
  · rw [List.all_eq_true]
    intro ch hch
    rcases ipv4Chars_mem hch with h | h
    · simp [isRegNameChar, Char.isAlphanum, h]
    · subst h; decide

theorem validAuthority_v4 {a b c d p : Nat} (ha : a ≤ 255) (hb : b ≤ 255)
    (hc : c ≤ 255) (hd : d ≤ 255) (hp : p ≤ 65535) :
    validAuthority (ipv4Chars a b c d ++ ':' :: decChars p) = true := by
  obtain ⟨dc, rest, hdc⟩ := List.exists_cons_of_ne_nil (decChars_ne_nil a)
  have hdcd : dc.isDigit = true := by
    apply decChars_mem_isDigit
    rw [hdc]
    exact List.mem_cons_self dc rest
  have hcf : ∀ x ∈ ipv4Chars a b c d, x ≠ ':' := by
    intro x hx
    rcases ipv4Chars_mem hx with h | h
    · exact (isDigit_ranges h).1
    · subst h; decide
  unfold validAuthority
  split
  · rename_i rest' heq
    exfalso
    rw [ipv4Chars_assoc, hdc] at heq
    rw [List.cons_append] at heq
    have : dc = '[' := (List.cons.injEq _ _ _ _).mp heq |>.1
    exact (isDigit_ranges hdcd).2.2.2.2 this
  · rw [splitFirst_append _ hcf]
    simp only [List.isEmpty_iff, Bool.or_eq_true, Bool.and_eq_true]
    exact ⟨validHostName_ipv4 ha hb hc hd, Or.inr (validPort_decChars hp)⟩

theorem validAuthority_bracket (rest : List Char) :
    validAuthority ('[' :: rest) =
      (match splitFirst ']' rest with
       | none => false
       | some (inner, tail) =>
           validInner inner &&
             match tail with
             | [] => true
             | ':' :: p => p.isEmpty || validPort p
             | _ => false) := rfl

theorem validAuthority_v6 {inner : List Char} {p : Nat}
    (hinner : validInner inner = true)
    (hclass : ∀ ch ∈ inner, isHexDigitChar ch = true ∨ ch = ':' ∨ ch = '.')
    (hp : p ≤ 65535) :
    validAuthority ('[' :: (inner ++ ']' :: ':' :: decChars p)) = true := by
  have hbr : ∀ ch ∈ inner, ch ≠ ']' := by
    intro ch hch
    rcases hclass ch hch with h | h | h
    · exact (isHex_ranges h).2.2.2.1
    · subst h; decide
    · subst h; decide
  rw [validAuthority_bracket, splitFirst_append _ hbr]
  show (validInner inner && ((decChars p).isEmpty || validPort (decChars p))) = true
  simp only [Bool.and_eq_true, Bool.or_eq_true]
  exact ⟨hinner, Or.inr (validPort_decChars hp)⟩

theorem urlParses_step (rest : List Char) :
    urlParses ("http://".data ++ rest) =
      (match splitFirst '/' rest with
       | none => !rest.isEmpty && validAuthority rest
       | some (auth, path) => !auth.isEmpty && validAuthority auth && path.all isPathChar) := by
  unfold urlParses
  rw [stripPrefixChars_append]

theorem urlParses_of {auth : List Char} (hne : auth ≠ [])
    (hns : ∀ ch ∈ auth, ch ≠ '/') (hva : validAuthority auth = true) :
    urlParses ("http://".data ++ (auth ++ ("/_shuttle/healthz" : String).data)) = true := by
  have hpath : ("/_shuttle/healthz" : String).data =
      '/' :: ("_shuttle/healthz" : String).data := rfl
  rw [urlParses_step, hpath, splitFirst_append _ hns]
  show (!auth.isEmpty && validAuthority auth &&
    (("_shuttle/healthz" : String).data).all isPathChar) = true
  simp only [Bool.and_eq_true, Bool.not_eq_true']
  refine ⟨⟨?_, hva⟩, by decide⟩
  simpa [List.isEmpty_iff] using hne

/-- For every socket address with zero scope id (every IPv4 address, and
every IPv6 address whose scope id is zero), the URL string
`http://{addr}/_shuttle/healthz` built by the default health check is a valid
URL, so `Url::parse` succeeds on it. -/
theorem urlParses_health_check_unscoped (addr : SocketAddr)
    (hscope : addr.scopeVal = 0) :
    urlParses (healthCheckUrl addr).data = true := by
  have hdata : (healthCheckUrl addr).data =
      "http://".data ++ (sockAddrChars addr ++ ("/_shuttle/healthz" : String).data) := by
    simp [healthCheckUrl, healthCheckPath, sockAddrString, String.data_append]
  rw [hdata]
  cases addr with
  | V4 ip port =>
      have ha : ip.a.val ≤ 255 := by have := ip.a.isLt; omega
      have hb : ip.b.val ≤ 255 := by have := ip.b.isLt; omega
      have hc : ip.c.val ≤ 255 := by have := ip.c.isLt; omega
      have hd : ip.d.val ≤ 255 := by have := ip.d.isLt; omega
      have hport : port.val ≤ 65535 := by have := port.isLt; omega
      apply urlParses_of
      · intro h
        simp only [sockAddrChars] at h
        exact ipv4Chars_ne_nil _ _ _ _ (List.append_eq_nil.mp h).1
      · intro ch hch
        simp only [sockAddrChars, List.mem_append, List.mem_cons] at hch
        rcases hch with h | h | h
        · rcases ipv4Chars_mem h with h' | h'
          · exact (isDigit_ranges h').2.2.1
          · subst h'; decide
        · subst h; decide
        · exact (isDigit_ranges (decChars_mem_isDigit h)).2.2.1
      · exact validAuthority_v4 ha hb hc hd hport
  | V6 ip port flow scope =>
      simp only [SocketAddr.scopeVal] at hscope
      have hsa : sockAddrChars (SocketAddr.V6 ip port flow scope) =
          '[' :: (ipv6InnerChars ip.segList ++ ']' :: ':' :: decChars port.val) := by
        simp [sockAddrChars, hscope]
      rw [hsa]
      have hport : port.val ≤ 65535 := by have := port.isLt; omega
      have hbseg : ∀ g ∈ ip.segList, g < 65536 := by
        intro g hg
        simp only [Ipv6Addr.segList, List.mem_cons, List.not_mem_nil, or_false] at hg
        rcases hg with h | h | h | h | h | h | h | h <;> subst h <;> exact Fin.isLt _
      have hlseg : ip.segList.length = 8 := rfl
      apply urlParses_of
      · simp
      · intro ch hch
        simp only [List.mem_cons, List.mem_append] at hch
        rcases hch with h | h | h
        · subst h; decide
        · rcases ipv6Inner_class ip.segList ch h with h' | h' | h'
          · exact (isHex_ranges h').2.2.1
          · subst h'; decide
          · subst h'; decide
        · rcases h with h' | h' | h2
          · subst h'; decide
          · subst h'; decide
          · exact (isDigit_ranges (decChars_mem_isDigit h2)).2.2.1
      · exact validAuthority_v6 (validInner_ipv6Inner hbseg hlseg)
          (ipv6Inner_class ip.segList) hport

theorem hex_fe80 : hexChars 65152 = ['f', 'e', '8', '0'] := by
  norm_num [hexChars]
  decide

theorem hex_one : hexChars 1 = ['1'] := by
  norm_num [hexChars]
  decide

theorem dec_three : decChars 3 = ['3'] := by
  norm_num [decChars]
  decide

theorem dec_8080 : decChars 8080 = ['8', '0', '8', '0'] := by
  norm_num [decChars]
  decide

theorem lzr_fe80 : longestZeroRun [65152, 0, 0, 0, 0, 0, 0, 1] = (1, 6) := by
  simp [longestZeroRun, zeroRunLen]

theorem inner_fe80 :
    ipv6InnerChars [65152, 0, 0, 0, 0, 0, 0, 1] = ['f', 'e', '8', '0', ':', ':', '1'] := by
  have h1 : (longestZeroRun [65152, 0, 0, 0, 0, 0, 0, 1]).1 = 1 := by rw [lzr_fe80]
  have h2 : (longestZeroRun [65152, 0, 0, 0, 0, 0, 0, 1]).2 = 6 := by rw [lzr_fe80]
  rw [ipv6InnerChars, if_neg (by decide), if_neg (by decide), if_neg (by decide),
    h1, h2, if_pos (by norm_num)]
  have htake : List.take 1 ([65152, 0, 0, 0, 0, 0, 0, 1] : List Nat) = [65152] := by decide
  have hdrop : List.drop (1 + 6) ([65152, 0, 0, 0, 0, 0, 0, 1] : List Nat) = [1] := by decide
  rw [htake, hdrop]
  simp only [List.map_cons, List.map_nil, joinSep]
  rw [hex_fe80, hex_one]
  decide

theorem sockAddrChars_scoped :
    sockAddrChars scopedLinkLocal = ("[fe80::1%3]:8080" : String).data := by
  have hseg : (⟨65152, 0, 0, 0, 0, 0, 0, 1⟩ : Ipv6Addr).segList =
      [65152, 0, 0, 0, 0, 0, 0, 1] := by decide
  have hscope : ((3 : Fin U32_BOUND)).val = 3 := by decide
  have hport : ((8080 : Fin 65536)).val = 8080 := by decide
  show sockAddrChars (SocketAddr.V6 ⟨65152, 0, 0, 0, 0, 0, 0, 1⟩ 8080 0 3) = _
  rw [sockAddrChars, if_neg (by decide), hseg, inner_fe80, hscope, hport,
    dec_three, dec_8080]
  decide

theorem healthCheckUrl_scoped_data :
    (healthCheckUrl scopedLinkLocal).data =
      ("http://[fe80::1%3]:8080/_shuttle/healthz" : String).data := by
  simp [healthCheckUrl, healthCheckPath, sockAddrString, String.data_append,
    sockAddrChars_scoped]

theorem urlParses_scoped_false :
    urlParses (healthCheckUrl scopedLinkLocal).data = false := by
  rw [healthCheckUrl_scoped_data]
  decide

/-- C10: refuted at the failing input: for the scoped link-local address
`[fe80::1%3]:8080` the Rust `Display` rendering carries the `%3` zone suffix,
the WHATWG parser used by `Url::parse` rejects `%` inside a bracketed IPv6
host, and so the `unwrap` at lib.rs line 108 panics; by contrast the same URL
construction is accepted for `127.0.0.1:8000`.  The claim that every socket
address yields a valid URL is false of the program. -/
theorem scoped_ipv6_health_check_url_rejected :
    sockAddrString scopedLinkLocal = "[fe80::1%3]:8080" ∧
    urlParses (healthCheckUrl scopedLinkLocal).data = false ∧
    urlParses (healthCheckUrl localhost8000).data = true := by
  refine ⟨?_, urlParses_scoped_false, urlParses_health_check_unscoped localhost8000 rfl⟩
  show String.mk (sockAddrChars scopedLinkLocal) = _
  rw [sockAddrChars_scoped]

/-- C1 counterexample: at the scoped address `[fe80::1%3]:8080` the default
health check panics on the URL unwrap (modelled as `none`) before issuing any
GET, even though the network would answer 200 — so it does not return the
success the claim requires of every socket address. -/
theorem health_check_default_scoped_counterexample :
    health_check_default scopedLinkLocal (fun _ => Except.ok 200) = none ∧
    health_check_default scopedLinkLocal (fun _ => Except.ok 200) ≠
      some (Except.ok ()) := by
  have h : health_check_default scopedLinkLocal (fun _ => Except.ok 200) = none := by
    simp [health_check_default, urlParses_scoped_false]
  exact ⟨h, by rw [h]; simp⟩

/-- C1 (amended): for every socket address whose health-check URL is accepted
by `Url::parse` — in particular every address with zero scope id — the
default `Service::health_check` issues an HTTP GET to the fixed well-known
path `/_shuttle/healthz` on that address and succeeds exactly when the
response status is 2xx; a non-2xx status yields `HeathCheckFailed` with
reason "Health check unsuccessful"; a transport error yields
`HeathCheckFailed` carrying that error's message.  (For a nonzero scope id
the URL is rejected and the unwrap panics before any GET.) -/
theorem health_check_default_spec (addr : SocketAddr) (get : HttpGet)
    (hparse : urlParses (healthCheckUrl addr).data = true) :
    healthCheckUrl addr = "http://" ++ sockAddrString addr ++ "/_shuttle/healthz" ∧
    (health_check_default addr get = some (Except.ok ()) ↔
      ∃ s, get (healthCheckUrl addr) = Except.ok s ∧ 200 ≤ s ∧ s < 300) ∧
    (∀ s, get (healthCheckUrl addr) = Except.ok s → ¬(200 ≤ s ∧ s < 300) →
      health_check_default addr get =
        some (Except.error (Error.HeathCheckFailed "Health check unsuccessful"))) ∧
    (∀ e, get (healthCheckUrl addr) = Except.error e →
      health_check_default addr get = some (Except.error (Error.HeathCheckFailed e))) := by
  have hs : ∀ s : Nat, isSuccessStatus s = true ↔ (200 ≤ s ∧ s < 300) := by
    intro s; simp [isSuccessStatus]
  refine ⟨rfl, ?_, ?_, ?_⟩
  · constructor
    · intro h
      cases hg : get (healthCheckUrl addr) with
      | error e => simp [health_check_default, hparse, hg] at h
      | ok s =>
          refine ⟨s, rfl, ?_⟩
          rw [← hs]
          by_contra hns
          simp [health_check_default, hparse, hg, hns] at h
    · rintro ⟨s, hg, hrange⟩
      simp [health_check_default, hparse, hg, (hs s).mpr hrange]
  · intro s hg hns
    rw [← hs] at hns
    simp [health_check_default, hparse, hg, hns]
  · intro e hg
    simp [health_check_default, hparse, hg]

/-- C1 witness: at `127.0.0.1:8000` (whose URL parses), a 200 response yields
success, a 503 response yields `HeathCheckFailed` with reason "Health check
unsuccessful", and a refused connection yields `HeathCheckFailed` with the
transport message. -/
theorem health_check_default_spec_witness :
    health_check_default localhost8000 (fun _ => Except.ok 200) =
      some (Except.ok ()) ∧
    health_check_default localhost8000 (fun _ => Except.ok 503) =
      some (Except.error (Error.HeathCheckFailed "Health check unsuccessful")) ∧
    health_check_default localhost8000 (fun _ => Except.error "connection refused") =
      some (Except.error (Error.HeathCheckFailed "connection refused")) :=
  ⟨(health_check_default_spec localhost8000 (fun _ => Except.ok 200)
      (urlParses_health_check_unscoped localhost8000 rfl)).2.1.mpr
      ⟨200, rfl, by decide, by decide⟩,
   (health_check_default_spec localhost8000 (fun _ => Except.ok 503)
      (urlParses_health_check_unscoped localhost8000 rfl)).2.2.1 503 rfl (by decide),
   (health_check_default_spec localhost8000 (fun _ => Except.error "connection refused")
      (urlParses_health_check_unscoped localhost8000 rfl)).2.2.2
      "connection refused" rfl⟩

end Shuttle
